import Mathlib

set_option maxRecDepth 100000

/-!
Verification development for the verlib version-comparison library.

The definitions below are a shallow embedding of the Rust sources:
  * `src/cmp.rs`    — `CHAR_ORDER`, `compare_alpha`, `parse_int`, `compare_versions`
  * `src/utils.rs`  — `NumChecker`
  * `src/semver.rs` — `to_semver`, `From<SemverVersion> for Version`

Byte strings are modelled as `List Nat` (each element one byte value); the
Rust functions take `&str` / `&[u8]` and only ever inspect bytes, so this is
faithful.  Slice positions (`pos_a`, `pos_b` in the Rust loop) are modelled
by recursing on suffix lists; `position(s, pos, pred)` from the source
corresponds to `takeWhile` / `dropWhile` on the suffix.
-/

namespace Verlib

/-- The 256-entry `CHAR_ORDER` table from `src/cmp.rs`, copied verbatim:
rank 0 for `~`, 1–26 for `a`–`z`, 27 for `+`, 28 for `-`, 29–38 for
`0`–`9`, and the sentinel 255 everywhere else. -/
def CHAR_ORDER : List Nat := [
    255, 255, 255, 255, 255, 255, 255, 255, 255, 255, 255, 255, 255, 255,
    255, 255, 255, 255, 255, 255, 255, 255, 255, 255, 255, 255, 255, 255, 255,
    255, 255, 255, 255, 255, 255, 255, 255, 255, 255, 255, 255, 255, 255, 27,
    255, 28, 255, 255, 29, 30, 31, 32, 33, 34, 35, 36, 37, 38, 255, 255, 255,
    255, 255, 255, 255, 255, 255, 255, 255, 255, 255, 255, 255, 255, 255, 255,
    255, 255, 255, 255, 255, 255, 255, 255, 255, 255, 255, 255, 255, 255, 255,
    255, 255, 255, 255, 255, 255, 1, 2, 3, 4, 5, 6, 7, 8, 9, 10, 11, 12, 13,
    14, 15, 16, 17, 18, 19, 20, 21, 22, 23, 24, 25, 26, 255, 255, 255, 0, 255,
    255, 255, 255, 255, 255, 255, 255, 255, 255, 255, 255, 255, 255, 255, 255,
    255, 255, 255, 255, 255, 255, 255, 255, 255, 255, 255, 255, 255, 255, 255,
    255, 255, 255, 255, 255, 255, 255, 255, 255, 255, 255, 255, 255, 255, 255,
    255, 255, 255, 255, 255, 255, 255, 255, 255, 255, 255, 255, 255, 255, 255,
    255, 255, 255, 255, 255, 255, 255, 255, 255, 255, 255, 255, 255, 255, 255,
    255, 255, 255, 255, 255, 255, 255, 255, 255, 255, 255, 255, 255, 255, 255,
    255, 255, 255, 255, 255, 255, 255, 255, 255, 255, 255, 255, 255, 255, 255,
    255, 255, 255, 255, 255, 255, 255, 255, 255, 255, 255, 255, 255, 255, 255,
    255, 255, 255, 255, 255, 255, 255, 255]

/-- Table lookup `CHAR_ORDER[usize::from(c)]` for byte `c`. -/
def charOrder (c : Nat) : Nat := CHAR_ORDER.getD c 255

/-- Embedding of `u8::is_ascii_digit` on a byte value. -/
def isDigit (c : Nat) : Bool := decide (48 ≤ c ∧ c ≤ 57)

/-- The negated digit predicate `|c| !c.is_ascii_digit()` used by the
numeric-run boundary in `compare_versions`. -/
def notDigit (c : Nat) : Bool := !isDigit c

/-- Embedding of `compare_alpha` from `src/cmp.rs`, rendered recursively: compare the two
runs byte by byte through `CHAR_ORDER`; when one run is exhausted, the longer
run decides via its next byte (`~` sorts before end-of-run, everything else
after). -/
def compare_alpha : List Nat → List Nat → Ordering
  | [], [] => .eq
  | [], cb :: _ => if cb = 126 then .gt else .lt
  | ca :: _, [] => if ca = 126 then .lt else .gt
  | ca :: a', cb :: b' =>
    if charOrder ca < charOrder cb then .lt
    else if charOrder cb < charOrder ca then .gt
    else compare_alpha a' b'

/-- Decimal value of a run of ASCII digit bytes. -/
def digitsVal (l : List Nat) : Nat := l.foldl (fun acc c => acc * 10 + (c - 48)) 0

/-- Embedding of `parse_int` from `src/cmp.rs`: `str::parse::<u32>` with `unwrap_or(0)`.
The argument is always a (possibly empty) run of ASCII digits, for which the
Rust parse fails exactly on the empty string or on overflow past
`u32::MAX = 4294967295`; both fall back to 0. -/
def parse_int (l : List Nat) : Nat :=
  if l = [] then 0
  else if digitsVal l ≤ 4294967295 then digitsVal l else 0

/-- The `while pos_a < a.len() || pos_b < b.len()` loop of `compare_versions`
from `src/cmp.rs`, with an explicit fuel argument (each iteration consumes
one unit; `a.length + b.length + 1` units always suffice, see
`compare_versions_fuel_irrel`).  Each iteration compares the leading
non-digit runs with `compare_alpha`, then the leading digit runs through
`parse_int`, and recurses on the remaining suffixes. -/
def compare_versions_fuel : Nat → List Nat → List Nat → Ordering
  | 0, _, _ => .eq
  | fuel + 1, a, b =>
    if a = [] ∧ b = [] then .eq
    else
      match compare_alpha (a.takeWhile notDigit) (b.takeWhile notDigit) with
      | .lt => .lt
      | .gt => .gt
      | .eq =>
        let a' := a.dropWhile notDigit
        let b' := b.dropWhile notDigit
        let numA := parse_int (a'.takeWhile isDigit)
        let numB := parse_int (b'.takeWhile isDigit)
        if numA < numB then .lt
        else if numB < numA then .gt
        else compare_versions_fuel fuel (a'.dropWhile isDigit)
                                        (b'.dropWhile isDigit)

/-- Embedding of `compare_versions` from `src/cmp.rs` on byte lists. -/
def compareVersionsBytes (a b : List Nat) : Ordering :=
  compare_versions_fuel (a.length + b.length + 1) a b

/-- The byte sequence of a string (`str::as_bytes`; all inputs of interest
are ASCII, where `Char.toNat` is the byte value). -/
def strBytes (s : String) : List Nat := s.data.map Char.toNat

/-- Embedding of `pub fn compare_versions(a: &str, b: &str)` from `src/cmp.rs`. -/
def compare_versions (a b : String) : Ordering :=
  compareVersionsBytes (strBytes a) (strBytes b)

/-- The `NumChecker` state machine from `src/utils.rs`. -/
inductive NumChecker
  | Start
  | NotNum
  | Zero
  | OtherNum
deriving DecidableEq

/-- Embedding of `NumChecker::new` from `src/utils.rs`. -/
def NumChecker.new : NumChecker := .Start

/-- Embedding of `NumChecker::reset` from `src/utils.rs`: `*self = NumChecker::Start`. -/
def NumChecker.reset (_ : NumChecker) : NumChecker := .Start

/-- Embedding of `NumChecker::numeric` from `src/utils.rs`. -/
def NumChecker.numeric : NumChecker → Bool
  | .Start => false
  | .NotNum => false
  | .Zero => true
  | .OtherNum => true

/-- Embedding of `NumChecker::check` from `src/utils.rs`.  The Rust method mutates the
state and returns a `bool`; here it returns the pair (flag, new state).  In
the `Zero` state a digit hits the early `return false`, which leaves the
state unchanged at `Zero`. -/
def NumChecker.check : NumChecker → Nat → Bool × NumChecker
  | .Start, c | .NotNum, c =>
    (true, if c = 48 then .Zero
           else if 48 ≤ c ∧ c ≤ 57 then .OtherNum
           else .NotNum)
  | .Zero, c =>
    if 48 ≤ c ∧ c ≤ 57 then (false, .Zero) else (true, .NotNum)
  | .OtherNum, c =>
    (true, if 48 ≤ c ∧ c ≤ 57 then .OtherNum else .NotNum)

/-- Embedding of `ToSemverError` from `src/semver.rs`. -/
inductive ToSemverError
  | HasEpoch
  | HasPost
  | TooManyFields
  | LeadingZero
  | InvalidCharacter
deriving DecidableEq

deriving instance DecidableEq for Except

/-- The mutable locals of `Version::to_semver` in `src/semver.rs`:
`field`, `num_check`, the output buffer `version`, and `read_epoch`. -/
structure SemverState where
  field : Nat
  num_check : NumChecker
  version : List Nat
  read_epoch : Bool
deriving DecidableEq

/-- The padding loop `for _ in field .. 2 { version.extend(b".0"); }` from `src/semver.rs`:
the `.0` padding appended for the missing numeric fields. -/
def padFields (f : Nat) : List Nat := (List.replicate (2 - f) [46, 48]).flatten

/-- One iteration of the `for c in self.0.bytes()` loop of
`Version::to_semver` (`src/semver.rs`), as a step on `SemverState`:
either the updated state or the error returned from inside the loop.
The branches mirror the Rust `if`/`else if` chain byte for byte
(46 = `.`, 126 = `~`, 58 = `:`, 45 = `-`). -/
def toSemverStep (st : SemverState) (c : Nat) : Except ToSemverError SemverState :=
  if 48 ≤ c ∧ c ≤ 57 then
    let v1 := if st.num_check = NumChecker.NotNum then st.version ++ [46] else st.version
    let n1 := if st.num_check = NumChecker.NotNum then st.num_check.reset else st.num_check
    let chk := n1.check c
    if chk.1 then .ok { st with version := v1 ++ [c], num_check := chk.2 }
    else .error .LeadingZero
  else if c = 46 then
    if st.num_check = NumChecker.Start then .error .InvalidCharacter
    else if st.field = 2 then .error .TooManyFields
    else .ok { st with version := st.version ++ [46],
                       field := st.field + 1,
                       num_check := st.num_check.reset }
  else if c = 126 then
    if st.num_check = NumChecker.Start then .error .InvalidCharacter
    else .ok { st with version := st.version ++ padFields st.field ++ [45],
                       field := 3,
                       num_check := st.num_check.reset }
  else if c = 58 ∧ st.field = 0 ∧ st.read_epoch = false ∧ st.version ≠ [] then
    if st.version = [48] then
      .ok { st with version := [], read_epoch := true,
                    num_check := st.num_check.reset }
    else .error .HasEpoch
  else if c = 45 ∧ st.num_check ≠ NumChecker.Start then .error .HasPost
  else if 97 ≤ c ∧ c ≤ 122 then
    if st.field < 3 then .error .InvalidCharacter
    else
      let v1 := if st.num_check.numeric then st.version ++ [46] else st.version
      let n1 := if st.num_check.numeric then st.num_check.reset else st.num_check
      .ok { st with version := v1 ++ [c], num_check := (n1.check c).2 }
  else .error .InvalidCharacter

/-- The byte loop of `Version::to_semver`, folded over the input. -/
def toSemverLoop : SemverState → List Nat → Except ToSemverError SemverState
  | st, [] => .ok st
  | st, c :: rest =>
    match toSemverStep st c with
    | .error e => .error e
    | .ok st' => toSemverLoop st' rest

/-- Embedding of `Version::to_semver` from `src/semver.rs` on the version's bytes:
run the loop from the initial state, then the end-of-scan empty-field check
and the final `.0` padding. -/
def to_semver (v : List Nat) : Except ToSemverError (List Nat) :=
  match toSemverLoop ⟨0, NumChecker.new, [], false⟩ v with
  | .error e => .error e
  | .ok st =>
    if st.num_check = NumChecker.Start then .error .InvalidCharacter
    else .ok (st.version ++ padFields st.field)

/-- Embedding of `impl From<SemverVersion> for Version` from `src/semver.rs`:
`Version(semver.0.replace("-", "~"))`.  For the single-byte pattern `-`,
`String::replace` is the per-byte rewrite 45 ↦ 126. -/
def versionFromSemver (s : List Nat) : List Nat :=
  s.map (fun c => if c = 45 then 126 else c)

/-- The Numeric Field Validator transition table as the spec's §4.3 (and
claim C7) states it, written from the spec's words for comparison with
`NumChecker.check`: from `Start` or `NotNum`, byte `0` goes to `Zero`, any
other digit to `OtherNum`, a non-digit to `NotNum`; from `Zero`, a digit
makes the step report failure with the state unchanged, a non-digit goes to
`NotNum`; from `OtherNum`, a digit stays `OtherNum`, a non-digit goes to
`NotNum`; the step reports success in every non-reject case. -/
def specNumCheckerStep (s : NumChecker) (c : Nat) : Bool × NumChecker :=
  match s with
  | .Start | .NotNum =>
    if c = 48 then (true, .Zero)
    else if 48 ≤ c ∧ c ≤ 57 then (true, .OtherNum)
    else (true, .NotNum)
  | .Zero =>
    if 48 ≤ c ∧ c ≤ 57 then (false, s) else (true, .NotNum)
  | .OtherNum =>
    if 48 ≤ c ∧ c ≤ 57 then (true, .OtherNum) else (true, .NotNum)

/-- The transformation claim C9 describes: the text with `-` rewritten to
`~` *and vice versa* (written from the claim's words, to compare with what
the code computes). -/
def specDashTildeSwap (s : List Nat) : List Nat :=
  s.map (fun c => if c = 45 then 126 else if c = 126 then 45 else c)

/-! ### Properties of the character priority table -/

theorem charOrder_zero_iff (c : Nat) : charOrder c = 0 ↔ c = 126 := by
  by_cases h : c < 256
  · exact (by decide : ∀ x, x < 256 → (charOrder x = 0 ↔ x = 126)) c h
  · constructor
    · intro hz
      exfalso
      have hlen : CHAR_ORDER.length ≤ c := by
        have : CHAR_ORDER.length = 256 := by decide
        omega
      rw [charOrder, List.getD_eq_default _ _ hlen] at hz
      omega
    · intro hc
      omega

theorem charOrder_pos (c : Nat) (h : c ≠ 126) : 0 < charOrder c :=
  Nat.pos_of_ne_zero (fun e => h ((charOrder_zero_iff c).mp e))

/-! ### Properties of `compare_alpha` -/

theorem compare_alpha_swap (a b : List Nat) :
    compare_alpha b a = (compare_alpha a b).swap := by
  induction a generalizing b with
  | nil =>
    cases b with
    | nil => rfl
    | cons cb b' =>
      simp only [compare_alpha]
      by_cases h : cb = 126 <;> simp [h, Ordering.swap]
  | cons ca a' ih =>
    cases b with
    | nil =>
      simp only [compare_alpha]
      by_cases h : ca = 126 <;> simp [h, Ordering.swap]
    | cons cb b' =>
      simp only [compare_alpha]
      rcases Nat.lt_trichotomy (charOrder ca) (charOrder cb) with h | h | h
      · rw [if_neg (by omega), if_pos h, if_pos h]
        rfl
      · rw [if_neg (by omega), if_neg (by omega), if_neg (by omega),
            if_neg (by omega)]
        exact ih b'
      · rw [if_pos h, if_neg (by omega), if_pos h]
        rfl

theorem compare_alpha_eq_iff (a b : List Nat) :
    compare_alpha a b = .eq ↔ a.map charOrder = b.map charOrder := by
  induction a generalizing b with
  | nil =>
    cases b with
    | nil => simp [compare_alpha]
    | cons cb b' =>
      simp only [compare_alpha, List.map]
      by_cases h : cb = 126 <;> simp [h]
  | cons ca a' ih =>
    cases b with
    | nil =>
      simp only [compare_alpha, List.map]
      by_cases h : ca = 126 <;> simp [h]
    | cons cb b' =>
      simp only [compare_alpha, List.map, List.cons.injEq]
      rcases Nat.lt_trichotomy (charOrder ca) (charOrder cb) with h | h | h
      · rw [if_pos h]
        simp
        omega
      · rw [if_neg (by omega), if_neg (by omega)]
        simp [h, ih b']
      · rw [if_neg (by omega), if_pos h]
        simp
        omega

theorem compare_alpha_refl (a : List Nat) : compare_alpha a a = .eq :=
  (compare_alpha_eq_iff a a).mpr rfl

theorem compare_alpha_congr_left (a b : List Nat)
    (h : a.map charOrder = b.map charOrder) (c : List Nat) :
    compare_alpha a c = compare_alpha b c := by
  induction a generalizing b c with
  | nil =>
    have hb : b = [] := by
      cases b with
      | nil => rfl
      | cons x xs => simp at h
    subst hb
    rfl
  | cons ca a' ih =>
    cases b with
    | nil => simp at h
    | cons cb b' =>
      simp only [List.map, List.cons.injEq] at h
      obtain ⟨hr, ht⟩ := h
      cases c with
      | nil =>
        by_cases e : ca = 126
        · have e2 : cb = 126 := by
            have h0 : charOrder cb = 0 := by
              rw [← hr]
              exact (charOrder_zero_iff ca).mpr e
            exact (charOrder_zero_iff cb).mp h0
          simp [compare_alpha, e, e2]
        · have e2 : cb ≠ 126 := by
            intro e3
            apply e
            apply (charOrder_zero_iff ca).mp
            rw [hr]
            exact (charOrder_zero_iff cb).mpr e3
          simp [compare_alpha, e, e2]
      | cons cc c' =>
        simp only [compare_alpha, hr]
        by_cases h1 : charOrder cb < charOrder cc
        · rw [if_pos h1, if_pos h1]
        · rw [if_neg h1, if_neg h1]
          by_cases h2 : charOrder cc < charOrder cb
          · rw [if_pos h2, if_pos h2]
          · rw [if_neg h2, if_neg h2]
            exact ih b' ht c'

theorem compare_alpha_congr_right (b c : List Nat)
    (h : b.map charOrder = c.map charOrder) (a : List Nat) :
    compare_alpha a b = compare_alpha a c := by
  have h1 : compare_alpha a b = (compare_alpha b a).swap := compare_alpha_swap b a
  rw [h1, compare_alpha_congr_left b c h a, compare_alpha_swap a c]
  simp

theorem compare_alpha_trans_lt : ∀ a b c : List Nat,
    compare_alpha a b = .lt → compare_alpha b c = .lt → compare_alpha a c = .lt := by
  intro a
  induction a with
  | nil =>
    intro b c h1 h2
    cases b with
    | nil => simp [compare_alpha] at h1
    | cons cb b' =>
      have hcb : cb ≠ 126 := by
        intro e
        rw [compare_alpha, if_pos e] at h1
        exact absurd h1 (by decide)
      cases c with
      | nil =>
        exfalso
        rw [compare_alpha] at h2
        by_cases e : cb = 126
        · exact hcb e
        · rw [if_neg e] at h2
          exact absurd h2 (by decide)
      | cons cc c' =>
        have hcc : cc ≠ 126 := by
          intro e
          have h0 : charOrder cc = 0 := (charOrder_zero_iff cc).mpr e
          rw [compare_alpha] at h2
          by_cases hlt : charOrder cb < charOrder cc
          · omega
          · rw [if_neg hlt] at h2
            by_cases hgt : charOrder cc < charOrder cb
            · rw [if_pos hgt] at h2
              exact absurd h2 (by decide)
            · have : charOrder cb = 0 := by omega
              exact hcb ((charOrder_zero_iff cb).mp this)
        rw [compare_alpha, if_neg hcc]
  | cons ca a' ih =>
    intro b c h1 h2
    cases b with
    | nil =>
      have hca : ca = 126 := by
        by_contra e
        rw [compare_alpha, if_neg e] at h1
        exact absurd h1 (by decide)
      cases c with
      | nil => simp [compare_alpha] at h2
      | cons cc c' =>
        have hcc : cc ≠ 126 := by
          intro e
          rw [compare_alpha, if_pos e] at h2
          exact absurd h2 (by decide)
        have hlt : charOrder ca < charOrder cc := by
          have h0 : charOrder ca = 0 := (charOrder_zero_iff ca).mpr hca
          have h3 := charOrder_pos cc hcc
          omega
        rw [compare_alpha, if_pos hlt]
    | cons cb b' =>
      cases c with
      | nil =>
        have hcb : cb = 126 := by
          by_contra e
          rw [compare_alpha, if_neg e] at h2
          exact absurd h2 (by decide)
        have h0 : charOrder cb = 0 := (charOrder_zero_iff cb).mpr hcb
        have hca : ca = 126 := by
          rw [compare_alpha] at h1
          by_cases hlt : charOrder ca < charOrder cb
          · omega
          · rw [if_neg hlt] at h1
            by_cases hgt : charOrder cb < charOrder ca
            · rw [if_pos hgt] at h1
              exact absurd h1 (by decide)
            · have : charOrder ca = 0 := by omega
              exact (charOrder_zero_iff ca).mp this
        rw [compare_alpha, if_pos hca]
      | cons cc c' =>
        rw [compare_alpha] at h1 h2 ⊢
        by_cases hab : charOrder ca < charOrder cb
        · by_cases hbc : charOrder cb < charOrder cc
          · rw [if_pos (by omega)]
          · rw [if_neg hbc] at h2
            by_cases hcb2 : charOrder cc < charOrder cb
            · rw [if_pos hcb2] at h2
              exact absurd h2 (by decide)
            · rw [if_pos (by omega)]
        · rw [if_neg hab] at h1
          by_cases hba : charOrder cb < charOrder ca
          · rw [if_pos hba] at h1
            exact absurd h1 (by decide)
          · rw [if_neg hba] at h1
            by_cases hbc : charOrder cb < charOrder cc
            · rw [if_pos (by omega)]
            · rw [if_neg hbc] at h2
              by_cases hcb2 : charOrder cc < charOrder cb
              · rw [if_pos hcb2] at h2
                exact absurd h2 (by decide)
              · rw [if_neg hcb2] at h2
                rw [if_neg (by omega), if_neg (by omega)]
                exact ih b' c' h1 h2

/-! ### Properties of the `compare_versions` loop -/

theorem dropWhile_length_le (p : Nat → Bool) (l : List Nat) :
    (l.dropWhile p).length ≤ l.length := by
  induction l with
  | nil => simp [List.dropWhile]
  | cons x xs ih =>
    cases hp : p x
    · simp [List.dropWhile, hp]
    · simp only [List.dropWhile, hp, List.length_cons]
      omega

theorem dropRuns_length_le (l : List Nat) :
    ((l.dropWhile notDigit).dropWhile isDigit).length ≤ l.length :=
  Nat.le_trans (dropWhile_length_le isDigit (l.dropWhile notDigit))
    (dropWhile_length_le notDigit l)

theorem dropRuns_length_lt (a : List Nat) (h : a ≠ []) :
    ((a.dropWhile notDigit).dropWhile isDigit).length < a.length := by
  cases a with
  | nil => exact absurd rfl h
  | cons x xs =>
    cases hx : isDigit x with
    | true =>
      have h1 : (x :: xs).dropWhile notDigit = x :: xs := by
        simp [List.dropWhile, notDigit, hx]
      rw [h1]
      have h2 : (x :: xs).dropWhile isDigit = xs.dropWhile isDigit := by
        simp [List.dropWhile, hx]
      rw [h2]
      have h3 := dropWhile_length_le isDigit xs
      simp only [List.length_cons]
      omega
    | false =>
      have h1 : (x :: xs).dropWhile notDigit = xs.dropWhile notDigit := by
        simp [List.dropWhile, notDigit, hx]
      rw [h1]
      have h2 := dropRuns_length_le xs
      have h3 := dropWhile_length_le isDigit (xs.dropWhile notDigit)
      have h4 := dropWhile_length_le notDigit xs
      simp only [List.length_cons]
      omega

theorem dropRuns_measure_lt (a b : List Nat) (h : ¬(a = [] ∧ b = [])) :
    ((a.dropWhile notDigit).dropWhile isDigit).length
      + ((b.dropWhile notDigit).dropWhile isDigit).length < a.length + b.length := by
  rcases not_and_or.mp h with ha | hb
  · have h1 := dropRuns_length_lt a ha
    have h2 := dropRuns_length_le b
    omega
  · have h1 := dropRuns_length_lt b hb
    have h2 := dropRuns_length_le a
    omega

theorem compare_versions_fuel_succ_lt (f : Nat) (a b : List Nat)
    (hab : ¬(a = [] ∧ b = []))
    (hA : compare_alpha (a.takeWhile notDigit) (b.takeWhile notDigit) = .lt) :
    compare_versions_fuel (f + 1) a b = .lt := by
  simp only [compare_versions_fuel, if_neg hab]
  rw [hA]

theorem compare_versions_fuel_succ_gt (f : Nat) (a b : List Nat)
    (hab : ¬(a = [] ∧ b = []))
    (hA : compare_alpha (a.takeWhile notDigit) (b.takeWhile notDigit) = .gt) :
    compare_versions_fuel (f + 1) a b = .gt := by
  simp only [compare_versions_fuel, if_neg hab]
  rw [hA]

theorem compare_versions_fuel_succ_eq (f : Nat) (a b : List Nat)
    (hab : ¬(a = [] ∧ b = []))
    (hA : compare_alpha (a.takeWhile notDigit) (b.takeWhile notDigit) = .eq) :
    compare_versions_fuel (f + 1) a b =
      (if parse_int ((a.dropWhile notDigit).takeWhile isDigit)
            < parse_int ((b.dropWhile notDigit).takeWhile isDigit) then .lt
       else if parse_int ((b.dropWhile notDigit).takeWhile isDigit)
            < parse_int ((a.dropWhile notDigit).takeWhile isDigit) then .gt
       else compare_versions_fuel f ((a.dropWhile notDigit).dropWhile isDigit)
              ((b.dropWhile notDigit).dropWhile isDigit)) := by
  simp only [compare_versions_fuel, if_neg hab]
  rw [hA]

theorem compare_versions_fuel_refl (f : Nat) (a : List Nat) :
    compare_versions_fuel f a a = .eq := by
  induction f generalizing a with
  | zero => rfl
  | succ f ih =>
    by_cases h : a = [] ∧ a = []
    · simp [compare_versions_fuel, h]
    · simp only [compare_versions_fuel, if_neg h]
      rw [compare_alpha_refl]
      simp [ih]

theorem compare_versions_fuel_swap (f : Nat) (a b : List Nat) :
    compare_versions_fuel f b a = (compare_versions_fuel f a b).swap := by
  induction f generalizing a b with
  | zero => rfl
  | succ f ih =>
    by_cases hab : a = [] ∧ b = []
    · have hba : b = [] ∧ a = [] := ⟨hab.2, hab.1⟩
      simp [compare_versions_fuel, hab, hba, Ordering.swap]
    · have hba : ¬(b = [] ∧ a = []) := fun h => hab ⟨h.2, h.1⟩
      cases hA : compare_alpha (a.takeWhile notDigit) (b.takeWhile notDigit) with
      | lt =>
        have hB : compare_alpha (b.takeWhile notDigit) (a.takeWhile notDigit) = .gt := by
          rw [compare_alpha_swap, hA]
          rfl
        rw [compare_versions_fuel_succ_lt f a b hab hA,
            compare_versions_fuel_succ_gt f b a hba hB]
        rfl
      | gt =>
        have hB : compare_alpha (b.takeWhile notDigit) (a.takeWhile notDigit) = .lt := by
          rw [compare_alpha_swap, hA]
          rfl
        rw [compare_versions_fuel_succ_gt f a b hab hA,
            compare_versions_fuel_succ_lt f b a hba hB]
        rfl
      | eq =>
        have hB : compare_alpha (b.takeWhile notDigit) (a.takeWhile notDigit) = .eq := by
          rw [compare_alpha_swap, hA]
          rfl
        rw [compare_versions_fuel_succ_eq f a b hab hA,
            compare_versions_fuel_succ_eq f b a hba hB]
        rcases Nat.lt_trichotomy (parse_int ((a.dropWhile notDigit).takeWhile isDigit))
            (parse_int ((b.dropWhile notDigit).takeWhile isDigit)) with h | h | h
        · rw [if_neg (by omega), if_pos h, if_pos h]
          rfl
        · rw [if_neg (by omega), if_neg (by omega), if_neg (by omega),
              if_neg (by omega)]
          exact ih _ _
        · rw [if_pos h, if_neg (by omega), if_pos h]
          rfl

theorem compare_versions_fuel_irrel : ∀ f g a b, a.length + b.length < f →
    a.length + b.length < g →
    compare_versions_fuel f a b = compare_versions_fuel g a b := by
  intro f
  induction f with
  | zero =>
    intro g a b hf
    exact absurd hf (by omega)
  | succ f ih =>
    intro g a b hf hg
    cases g with
    | zero => exact absurd hg (by omega)
    | succ g' =>
      by_cases hab : a = [] ∧ b = []
      · simp [compare_versions_fuel, hab]
      · simp only [compare_versions_fuel, if_neg hab]
        cases hA : compare_alpha (a.takeWhile notDigit) (b.takeWhile notDigit) with
        | lt => rfl
        | gt => rfl
        | eq =>
          simp only []
          rcases Nat.lt_trichotomy (parse_int ((a.dropWhile notDigit).takeWhile isDigit))
              (parse_int ((b.dropWhile notDigit).takeWhile isDigit)) with h | h | h
          · rw [if_pos h, if_pos h]
          · rw [if_neg (by omega), if_neg (by omega), if_neg (by omega),
                if_neg (by omega)]
            have hm := dropRuns_measure_lt a b hab
            exact ih g' _ _ (by omega) (by omega)
          · rw [if_neg (by omega), if_pos h, if_neg (by omega), if_pos h]

theorem compare_versions_fuel_trans : ∀ (f : Nat) (a b c : List Nat),
    compare_versions_fuel f a b = .lt → compare_versions_fuel f b c = .lt →
    compare_versions_fuel f a c = .lt := by
  intro f
  induction f with
  | zero =>
    intro a b c h1 _
    exact absurd h1 (by simp [compare_versions_fuel])
  | succ f ih =>
    intro a b c h1 h2
    by_cases hab : a = [] ∧ b = []
    · have he : compare_versions_fuel (f + 1) a b = .eq := by
        simp [compare_versions_fuel, hab]
      rw [he] at h1
      exact absurd h1 (by decide)
    by_cases hbc : b = [] ∧ c = []
    · have he : compare_versions_fuel (f + 1) b c = .eq := by
        simp [compare_versions_fuel, hbc]
      rw [he] at h2
      exact absurd h2 (by decide)
    by_cases hac : a = [] ∧ c = []
    · exfalso
      obtain ⟨ha, hc⟩ := hac
      subst ha
      subst hc
      have hs := compare_versions_fuel_swap (f + 1) b []
      rw [h1, h2] at hs
      exact absurd hs (by decide)
    cases hA : compare_alpha (a.takeWhile notDigit) (b.takeWhile notDigit) with
    | gt =>
      rw [compare_versions_fuel_succ_gt f a b hab hA] at h1
      exact absurd h1 (by decide)
    | lt =>
      cases hB : compare_alpha (b.takeWhile notDigit) (c.takeWhile notDigit) with
      | gt =>
        rw [compare_versions_fuel_succ_gt f b c hbc hB] at h2
        exact absurd h2 (by decide)
      | lt =>
        exact compare_versions_fuel_succ_lt f a c hac
          (compare_alpha_trans_lt _ _ _ hA hB)
      | eq =>
        have hmap := (compare_alpha_eq_iff _ _).mp hB
        have hAC : compare_alpha (a.takeWhile notDigit) (c.takeWhile notDigit) = .lt := by
          rw [← compare_alpha_congr_right _ _ hmap (a.takeWhile notDigit)]
          exact hA
        exact compare_versions_fuel_succ_lt f a c hac hAC
    | eq =>
      rw [compare_versions_fuel_succ_eq f a b hab hA] at h1
      cases hB : compare_alpha (b.takeWhile notDigit) (c.takeWhile notDigit) with
      | gt =>
        rw [compare_versions_fuel_succ_gt f b c hbc hB] at h2
        exact absurd h2 (by decide)
      | lt =>
        have hmap := (compare_alpha_eq_iff _ _).mp hA
        have hAC : compare_alpha (a.takeWhile notDigit) (c.takeWhile notDigit) = .lt := by
          rw [compare_alpha_congr_left _ _ hmap]
          exact hB
        exact compare_versions_fuel_succ_lt f a c hac hAC
      | eq =>
        rw [compare_versions_fuel_succ_eq f b c hbc hB] at h2
        have hmapAB := (compare_alpha_eq_iff _ _).mp hA
        have hAC : compare_alpha (a.takeWhile notDigit) (c.takeWhile notDigit) = .eq := by
          rw [compare_alpha_congr_left _ _ hmapAB]
          exact hB
        rw [compare_versions_fuel_succ_eq f a c hac hAC]
        set numA := parse_int ((a.dropWhile notDigit).takeWhile isDigit)
        set numB := parse_int ((b.dropWhile notDigit).takeWhile isDigit)
        set numC := parse_int ((c.dropWhile notDigit).takeWhile isDigit)
        set A2 := (a.dropWhile notDigit).dropWhile isDigit
        set B2 := (b.dropWhile notDigit).dropWhile isDigit
        set C2 := (c.dropWhile notDigit).dropWhile isDigit
        have H1 : numA < numB ∨ (numA = numB ∧ compare_versions_fuel f A2 B2 = .lt) := by
          by_cases n1 : numA < numB
          · exact Or.inl n1
          · rw [if_neg n1] at h1
            by_cases n2 : numB < numA
            · rw [if_pos n2] at h1
              exact absurd h1 (by decide)
            · rw [if_neg n2] at h1
              exact Or.inr ⟨by omega, h1⟩
        have H2 : numB < numC ∨ (numB = numC ∧ compare_versions_fuel f B2 C2 = .lt) := by
          by_cases n1 : numB < numC
          · exact Or.inl n1
          · rw [if_neg n1] at h2
            by_cases n2 : numC < numB
            · rw [if_pos n2] at h2
              exact absurd h2 (by decide)
            · rw [if_neg n2] at h2
              exact Or.inr ⟨by omega, h2⟩
        rcases H1 with n1 | ⟨e1, r1⟩ <;> rcases H2 with n2 | ⟨e2, r2⟩
        · rw [if_pos (show numA < numC by omega)]
        · rw [if_pos (show numA < numC by omega)]
        · rw [if_pos (show numA < numC by omega)]
        · rw [if_neg (show ¬numA < numC by omega),
              if_neg (show ¬numC < numA by omega)]
          exact ih A2 B2 C2 r1 r2

theorem compareVersionsBytes_eq_fuel (F : Nat) (a b : List Nat)
    (h : a.length + b.length < F) :
    compareVersionsBytes a b = compare_versions_fuel F a b :=
  compare_versions_fuel_irrel (a.length + b.length + 1) F a b (by omega) h

theorem compareVersionsBytes_refl (a : List Nat) : compareVersionsBytes a a = .eq :=
  compare_versions_fuel_refl _ a

theorem compareVersionsBytes_swap (a b : List Nat) :
    compareVersionsBytes b a = (compareVersionsBytes a b).swap := by
  unfold compareVersionsBytes
  rw [show b.length + a.length + 1 = a.length + b.length + 1 by omega]
  exact compare_versions_fuel_swap _ a b

theorem compareVersionsBytes_trans (a b c : List Nat)
    (h1 : compareVersionsBytes a b = .lt) (h2 : compareVersionsBytes b c = .lt) :
    compareVersionsBytes a c = .lt := by
  rw [compareVersionsBytes_eq_fuel (a.length + b.length + c.length + 1) a b
      (by omega)] at h1
  rw [compareVersionsBytes_eq_fuel (a.length + b.length + c.length + 1) b c
      (by omega)] at h2
  rw [compareVersionsBytes_eq_fuel (a.length + b.length + c.length + 1) a c
      (by omega)]
  exact compare_versions_fuel_trans _ a b c h1 h2

/-! ### Properties of `to_semver` -/

theorem padFields_mem (f x : Nat) (h : x ∈ padFields f) : x = 46 ∨ x = 48 := by
  unfold padFields at h
  rw [List.mem_flatten] at h
  obtain ⟨s, hs, hx⟩ := h
  rw [List.mem_replicate] at hs
  rw [hs.2] at hx
  simpa using hx

theorem toSemverStep_no_tilde (st : SemverState) (c : Nat) (st' : SemverState)
    (hstep : toSemverStep st c = .ok st')
    (hinv : ∀ x ∈ st.version, x ≠ 126) : ∀ x ∈ st'.version, x ≠ 126 := by
  unfold toSemverStep at hstep
  by_cases h1 : 48 ≤ c ∧ c ≤ 57
  · rw [if_pos h1] at hstep
    by_cases hq : (((if st.num_check = NumChecker.NotNum then st.num_check.reset
        else st.num_check).check c).1 : Bool)
    · rw [if_pos hq] at hstep
      simp only [Except.ok.injEq] at hstep
      subst hstep
      intro x hx
      rcases List.mem_append.mp hx with hx2 | hx2
      · by_cases hn : st.num_check = NumChecker.NotNum
        · rw [if_pos hn] at hx2
          rcases List.mem_append.mp hx2 with hx3 | hx3
          · exact hinv x hx3
          · simp at hx3
            omega
        · rw [if_neg hn] at hx2
          exact hinv x hx2
      · simp at hx2
        omega
    · rw [if_neg hq] at hstep
      exact Except.noConfusion hstep
  · rw [if_neg h1] at hstep
    by_cases h2 : c = 46
    · rw [if_pos h2] at hstep
      by_cases hs : st.num_check = NumChecker.Start
      · rw [if_pos hs] at hstep
        exact Except.noConfusion hstep
      · rw [if_neg hs] at hstep
        by_cases hf : st.field = 2
        · rw [if_pos hf] at hstep
          exact Except.noConfusion hstep
        · rw [if_neg hf] at hstep
          simp only [Except.ok.injEq] at hstep
          subst hstep
          intro x hx
          rcases List.mem_append.mp hx with hx2 | hx2
          · exact hinv x hx2
          · simp at hx2
            omega
    · rw [if_neg h2] at hstep
      by_cases h3 : c = 126
      · rw [if_pos h3] at hstep
        by_cases hs : st.num_check = NumChecker.Start
        · rw [if_pos hs] at hstep
          exact Except.noConfusion hstep
        · rw [if_neg hs] at hstep
          simp only [Except.ok.injEq] at hstep
          subst hstep
          intro x hx
          rcases List.mem_append.mp hx with hx2 | hx2
          · rcases List.mem_append.mp hx2 with hx3 | hx3
            · exact hinv x hx3
            · rcases padFields_mem st.field x hx3 with h | h <;> omega
          · simp at hx2
            omega
      · rw [if_neg h3] at hstep
        by_cases h4 : c = 58 ∧ st.field = 0 ∧ st.read_epoch = false
            ∧ st.version ≠ []
        · rw [if_pos h4] at hstep
          by_cases hv : st.version = [48]
          · rw [if_pos hv] at hstep
            simp only [Except.ok.injEq] at hstep
            subst hstep
            intro x hx
            exact absurd hx (List.not_mem_nil x)
          · rw [if_neg hv] at hstep
            exact Except.noConfusion hstep
        · rw [if_neg h4] at hstep
          by_cases h5 : c = 45 ∧ st.num_check ≠ NumChecker.Start
          · rw [if_pos h5] at hstep
            exact Except.noConfusion hstep
          · rw [if_neg h5] at hstep
            by_cases h6 : 97 ≤ c ∧ c ≤ 122
            · rw [if_pos h6] at hstep
              by_cases hf : st.field < 3
              · rw [if_pos hf] at hstep
                exact Except.noConfusion hstep
              · rw [if_neg hf] at hstep
                simp only [Except.ok.injEq] at hstep
                subst hstep
                intro x hx
                rcases List.mem_append.mp hx with hx2 | hx2
                · by_cases hn : (st.num_check.numeric : Bool)
                  · rw [if_pos hn] at hx2
                    rcases List.mem_append.mp hx2 with hx3 | hx3
                    · exact hinv x hx3
                    · simp at hx3
                      omega
                  · rw [if_neg hn] at hx2
                    exact hinv x hx2
                · simp at hx2
                  omega
            · rw [if_neg h6] at hstep
              exact Except.noConfusion hstep

theorem toSemverLoop_no_tilde : ∀ (l : List Nat) (st st' : SemverState),
    toSemverLoop st l = .ok st' → (∀ x ∈ st.version, x ≠ 126) →
    ∀ x ∈ st'.version, x ≠ 126 := by
  intro l
  induction l with
  | nil =>
    intro st st' h hinv
    simp only [toSemverLoop] at h
    cases h
    exact hinv
  | cons c rest ih =>
    intro st st' h hinv
    simp only [toSemverLoop] at h
    rcases hs : toSemverStep st c with e | st1
    · rw [hs] at h
      exact Except.noConfusion h
    · rw [hs] at h
      exact ih st1 st' h (toSemverStep_no_tilde st c st1 hs hinv)

theorem to_semver_no_tilde (v s : List Nat) (h : to_semver v = .ok s) :
    ∀ x ∈ s, x ≠ 126 := by
  unfold to_semver at h
  rcases hl : toSemverLoop ⟨0, NumChecker.new, [], false⟩ v with e | st
  · rw [hl] at h
    exact Except.noConfusion h
  · rw [hl] at h
    have h' : (if st.num_check = NumChecker.Start
        then (.error .InvalidCharacter : Except ToSemverError (List Nat))
        else .ok (st.version ++ padFields st.field)) = .ok s := h
    by_cases hs : st.num_check = NumChecker.Start
    · rw [if_pos hs] at h'
      exact Except.noConfusion h'
    · rw [if_neg hs] at h'
      simp only [Except.ok.injEq] at h'
      subst h'
      intro x hx
      rcases List.mem_append.mp hx with hx2 | hx2
      · exact toSemverLoop_no_tilde v _ st hl (by simp) x hx2
      · rcases padFields_mem st.field x hx2 with h | h <;> omega

theorem versionFromSemver_eq_swap_of_no_tilde : ∀ s : List Nat,
    (∀ x ∈ s, x ≠ 126) → versionFromSemver s = specDashTildeSwap s := by
  intro s
  induction s with
  | nil => intro _; rfl
  | cons x xs ih =>
    intro h
    have hx : x ≠ 126 := h x (by simp)
    simp only [versionFromSemver, specDashTildeSwap, List.map] at ih ⊢
    rw [ih (fun y hy => h y (by simp [hy]))]
    by_cases h45 : x = 45
    · simp [h45]
    · simp [h45, hx]

/-! ### Claim theorems -/

/-- C1: `compare_versions` is a total order on version strings: for every
pair `(a, b)` exactly one of Less, Equal, Greater holds (the comparator
returns one of the three outcomes), `compare_versions b a` is the reverse
of `compare_versions a b` (antisymmetry), and Less is transitive. -/
theorem compare_versions_total_order (a b c : String) :
    (compare_versions a b = .lt ∨ compare_versions a b = .eq
      ∨ compare_versions a b = .gt)
    ∧ compare_versions b a = (compare_versions a b).swap
    ∧ (compare_versions a b = .lt → compare_versions b c = .lt →
        compare_versions a c = .lt) := by
  refine ⟨?_, ?_, ?_⟩
  · cases h : compare_versions a b
    · exact Or.inl rfl
    · exact Or.inr (Or.inl rfl)
    · exact Or.inr (Or.inr rfl)
  · exact compareVersionsBytes_swap (strBytes a) (strBytes b)
  · exact fun h1 h2 =>
      compareVersionsBytes_trans (strBytes a) (strBytes b) (strBytes c) h1 h2

theorem compare_versions_total_order_witness :
    compare_versions "1" "2" = .lt ∧ compare_versions "2" "3" = .lt
    ∧ compare_versions "1" "3" = .lt :=
  ⟨by decide, by decide,
    (compare_versions_total_order "1" "2" "3").2.2 (by decide) (by decide)⟩

/-- C2 counterexample: `compare_versions "1.02" "1.2" = Equal` although the
two version strings are different, so Equal does not coincide with string
equality (both numeric runs parse to the same integer). -/
theorem compare_versions_eq_iff_string_eq_cex :
    compare_versions "1.02" "1.2" = .eq ∧ "1.02" ≠ "1.2" :=
  ⟨by decide, by decide⟩

/-- C2 amended: string equality implies `compare_versions a b = Equal`, but
the converse fails (distinct numerals with equal numeric value, such as
`"1.02"` and `"1.2"`, also compare Equal). -/
theorem compare_versions_eq_of_string_eq (a b : String) (h : a = b) :
    compare_versions a b = .eq := by
  subst h
  exact compareVersionsBytes_refl (strBytes a)

theorem compare_versions_eq_of_string_eq_witness :
    compare_versions "1.2" "1.2" = .eq :=
  compare_versions_eq_of_string_eq "1.2" "1.2" rfl

/-- C3 counterexample: `"te"` is a strict prefix of `"test"` whose next byte
is `s` (115, not a tilde), so the claim predicts the shorter run compares
Greater; `compare_alpha` actually returns Less. -/
theorem compare_alpha_prefix_claim_cex :
    strBytes "test" = strBytes "te" ++ 115 :: [116]
    ∧ (115 : Nat) ≠ 126
    ∧ compare_alpha (strBytes "te") (strBytes "test") = .lt
    ∧ Ordering.lt ≠ Ordering.gt := by
  decide

/-- C3 amended: when one non-digit run is a strict prefix of the other
(`longer = shorter ++ c :: rest`), the shorter run compares *Less* than the
longer one, unless the first byte `c` of the longer run past the common
prefix is a tilde (126), in which case the longer run is Less and the
shorter run is Greater. -/
theorem compare_alpha_prefix_rule (a rest : List Nat) (c : Nat) :
    compare_alpha a (a ++ c :: rest) = (if c = 126 then .gt else .lt)
    ∧ compare_alpha (a ++ c :: rest) a = (if c = 126 then .lt else .gt) := by
  induction a with
  | nil => exact ⟨rfl, rfl⟩
  | cons x a' ih =>
    refine ⟨?_, ?_⟩
    · rw [List.cons_append]
      simp only [compare_alpha]
      rw [if_neg (Nat.lt_irrefl _), if_neg (Nat.lt_irrefl _)]
      exact ih.1
    · rw [List.cons_append]
      simp only [compare_alpha]
      rw [if_neg (Nat.lt_irrefl _), if_neg (Nat.lt_irrefl _)]
      exact ih.2

/-- C4: the worked ordering examples of the spec hold end-to-end for
`compare_versions`. -/
theorem compare_versions_worked_examples :
    compare_versions "1.2" "1.2.0" = .lt
    ∧ compare_versions "1.3.1" "1.1.3" = .gt
    ∧ compare_versions "1.1~rc1" "1.1" = .lt
    ∧ compare_versions "1.1-fix1" "1.1" = .gt := by
  decide

/-- C5 counterexample: the claim says the public version comparator gives
`compare("test","te5t") = Less`; `compare_versions` actually returns
Greater on these two whole strings. -/
theorem letters_before_digits_cex :
    compare_versions "test" "te5t" = .gt ∧ Ordering.gt ≠ Ordering.lt := by
  decide

/-- C5 amended: letters sort before digits at the alpha-run comparator,
`compare_alpha "test" "te5t" = Less` (as the code's own test asserts), but
the public version comparator — which splits runs at the first digit —
returns Greater on these whole version strings. -/
theorem letters_before_digits_amended :
    compare_alpha (strBytes "test") (strBytes "te5t") = .lt
    ∧ compare_versions "test" "te5t" = .gt := by
  decide

/-- C10: the empty version string fails semver conversion with
`InvalidCharacter` (the end-of-scan empty-field check fires with no byte
ever scanned), although the comparator accepts it:
`compare_versions "" "" = Equal`. -/
theorem to_semver_empty_string_edge :
    to_semver (strBytes "") = .error .InvalidCharacter
    ∧ compare_versions "" "" = .eq := by
  decide

/-- C6: `to_semver` produces exactly the specified results on the ten
oracle inputs of the spec. -/
theorem to_semver_oracle :
    to_semver (strBytes "1.2.3") = .ok (strBytes "1.2.3")
    ∧ to_semver (strBytes "1.2") = .ok (strBytes "1.2.0")
    ∧ to_semver (strBytes "8") = .ok (strBytes "8.0.0")
    ∧ to_semver (strBytes "0:1.2.3") = .ok (strBytes "1.2.3")
    ∧ to_semver (strBytes "1:1.2.3") = .error .HasEpoch
    ∧ to_semver (strBytes "1.2.3.4") = .error .TooManyFields
    ∧ to_semver (strBytes "1.02") = .error .LeadingZero
    ∧ to_semver (strBytes "1.2~rc1") = .ok (strBytes "1.2.0-rc.1")
    ∧ to_semver (strBytes "1.2~0ubuntu3") = .ok (strBytes "1.2.0-0.ubuntu.3")
    ∧ to_semver (strBytes ".2") = .error .InvalidCharacter := by
  decide

/-- C7: `NumChecker` implements exactly the 4-state transition table of the
spec: `check` agrees with the table everywhere (including the reject signal
with unchanged state from `Zero` on a digit, and returning true in every
non-reject case), `numeric` is true exactly in `Zero` and `OtherNum`, and
`reset` restores `Start`. -/
theorem NumChecker_implements_spec_table (s : NumChecker) (c : Nat) :
    NumChecker.check s c = specNumCheckerStep s c
    ∧ (NumChecker.numeric s = true ↔ (s = .Zero ∨ s = .OtherNum))
    ∧ NumChecker.reset s = .Start := by
  refine ⟨?_, ?_, rfl⟩
  · cases s <;> simp only [NumChecker.check, specNumCheckerStep] <;>
      split_ifs <;> rfl
  · cases s <;> decide

/-- C8 counterexample: a repeated `:` does not produce `HasEpoch` — on
`"0:0:1.2.3"` the second colon falls through to the catch-all branch and
`to_semver` returns `InvalidCharacter` (exactly what the repo's own test
asserts). -/
theorem epoch_repeated_colon_cex :
    to_semver (strBytes "0:0:1.2.3") = .error .InvalidCharacter
    ∧ ToSemverError.InvalidCharacter ≠ ToSemverError.HasEpoch := by
  decide

/-- C8 amended: when the scanner meets `:` (58), it is accepted only at
field 0, with the epoch not yet consumed and a non-empty accumulated
buffer; in that case a buffer of exactly `"0"` is discarded (continuing
with `read_epoch` set) and any other buffer yields `HasEpoch`.  In every
other situation — a repeated `:`, a `:` with an empty buffer, or a `:`
past field 0 — the byte falls through to the catch-all branch and yields
`InvalidCharacter`, not `HasEpoch`. -/
theorem to_semver_epoch_colon_rule (st : SemverState) :
    toSemverStep st 58 =
      (if st.field = 0 ∧ st.read_epoch = false ∧ st.version ≠ [] then
        (if st.version = [48] then
          .ok { st with version := [], read_epoch := true,
                        num_check := st.num_check.reset }
         else .error .HasEpoch)
       else .error .InvalidCharacter) := by
  by_cases hP : st.field = 0 ∧ st.read_epoch = false ∧ st.version ≠ []
  · rw [if_pos hP]
    unfold toSemverStep
    rw [if_neg (by decide), if_neg (by decide), if_neg (by decide),
        if_pos ⟨rfl, hP⟩]
  · rw [if_neg hP]
    unfold toSemverStep
    rw [if_neg (by decide), if_neg (by decide), if_neg (by decide),
        if_neg (fun h => hP h.2),
        if_neg (fun h => absurd h.1 (by decide)),
        if_neg (by decide)]

/-- C9 counterexample: `to_semver "1.2" = Ok "1.2.0"`, and converting the
output back does not yield the text of `v = "1.2"` with `-` and `~`
interchanged (the zero-padding inserted by the conversion is not undone). -/
theorem round_trip_claim_cex :
    to_semver (strBytes "1.2") = .ok (strBytes "1.2.0")
    ∧ versionFromSemver (strBytes "1.2.0") ≠ specDashTildeSwap (strBytes "1.2") := by
  decide

/-- C9 amended: for every version `v` with `to_semver v = Ok s`, the
back-conversion `Version::from` yields the text of `s` — not of `v` — with
`-` rewritten to `~`; since the strict conversion output never contains a
tilde, this coincides with the two-way `-`/`~` interchange applied to `s`,
so the rewrite touches only semver's pre-release delimiter and loses
nothing else. -/
theorem round_trip_is_dash_rewrite (v s : List Nat) (h : to_semver v = .ok s) :
    (¬ 126 ∈ s) ∧ versionFromSemver s = specDashTildeSwap s := by
  have hnt := to_semver_no_tilde v s h
  exact ⟨fun hm => hnt 126 hm rfl,
    versionFromSemver_eq_swap_of_no_tilde s hnt⟩

theorem round_trip_is_dash_rewrite_witness :
    (¬ 126 ∈ strBytes "1.2.3")
    ∧ versionFromSemver (strBytes "1.2.3") = specDashTildeSwap (strBytes "1.2.3") :=
  round_trip_is_dash_rewrite (strBytes "1.2.3") (strBytes "1.2.3") (by decide)

end Verlib
